import Mathlib

/-
Verification of the fensterchess.tooling chunked record store and
incremental index-rebuild engine.

The definitions below are a shallow embedding of the TypeScript/JavaScript
sources:
  - `saveGamesToChunks`, `loadExistingChunksData`, `processGames` and the
    checkpointing loop of `discoverPgnmentorFiles` (downloadPgnmentor script),
  - `enrichGamesWithEcoJson`, `buildPlayerIndex` and the chunk-saving stage
    of `buildIndexes` (scripts/buildIndexes.ts),
  - `uploadToBlobs` (scripts/testBlobConnection.js, the plan/apply uploader).

File-system state is modelled explicitly: a chunk directory is a map from
chunk id to an optional chunk content, and writing a chunk file is a point
update of that map.  External capabilities (the PGN move cleaner/replayer of
the chess library, the eco.json opening lookup) are modelled as function
parameters gathered in `EnrichEnv`.  JavaScript objects used as maps are
modelled as insertion-ordered association lists with `assocGet`/`assocSet`.
-/

namespace Fenster

/-- Header fields of one parsed PGN game, as consumed by `processGames`.
Missing headers are `none`; the numeric Elo headers are modelled as the
parsed numeric value (`parseInt(h || "0")` in the source). -/
structure Headers where
  White : Option String
  Black : Option String
  WhiteElo : Option Nat
  BlackElo : Option Nat
  Result : Option String
  Date : Option String
  Event : Option String
  Site : Option String
  ECO : Option String
  Opening : Option String
  Variation : Option String
  SubVariation : Option String
  deriving Repr, DecidableEq

/-- One admitted record (`GameMetadata` in scripts/types).  The annotation
group (`ecoJsonFen`, `ecoJsonOpening`, `ecoJsonEco`, `movesBack`) is optional
and written only by the enrichment engine. -/
structure GameMetadata where
  idx : Nat
  white : String
  black : String
  whiteElo : Nat
  blackElo : Nat
  result : String
  date : String
  event : String
  site : String
  eco : Option String
  opening : Option String
  variation : Option String
  subVariation : Option String
  moves : String
  ply : Nat
  source : String
  sourceFile : String
  hash : String
  ecoJsonFen : Option String := none
  ecoJsonOpening : Option String := none
  ecoJsonEco : Option String := none
  movesBack : Option Nat := none
  deriving Repr, DecidableEq

/-- JavaScript truthiness of an optional string field: `undefined` and the
empty string are falsy. -/
def truthy : Option String → Bool
  | none => false
  | some s => s ≠ ""

/-- Lookup in a JavaScript object used as a map (`obj[k]`). -/
def assocGet {β : Type} (l : List (String × β)) (k : String) : Option β :=
  (l.find? (fun p => p.1 = k)).map (fun p => p.2)

/-- Assignment in a JavaScript object used as a map (`obj[k] = v`):
overwrite in place when the key is present, append otherwise (JavaScript
objects preserve insertion order). -/
def assocSet {β : Type} (l : List (String × β)) (k : String) (v : β) :
    List (String × β) :=
  match l with
  | [] => [(k, v)]
  | p :: rest => if p.1 = k then (k, v) :: rest else p :: assocSet rest k v

/-- Modelled from the spec: `hashGame.ts` is not under src/ (only its
callers are).  Per spec section 4.1 and section 3, the fingerprint is a pure,
deterministic hash of the identity-defining header fields (participants,
result, date), independent of transient fields such as the source file.
We model it as a separator-joined encoding of those fields. -/
def hashGame (h : Headers) : String :=
  (h.White.getD "") ++ "|" ++ (h.Black.getD "") ++ "|" ++
    (h.Result.getD "") ++ "|" ++ (h.Date.getD "")

/-- Modelled from the spec: `filterGame.ts` (`shouldImportGame`) is not
under src/.  Per spec section 7(a) and the repository notes, a candidate is
rejected when it is unfinished (Result header `*` or absent); with
`requireTitles: false` no further title requirement applies. -/
def shouldImportGame (h : Headers) : Bool :=
  h.Result.getD "*" ≠ "*"

/-- The deduplication index: a JavaScript object mapping fingerprint to
record id. -/
abbrev DeduplicationIndex := List (String × Nat)

/-- Index lookup (`deduplicationIndex[hash]`). -/
def lookupIdx (d : DeduplicationIndex) (h : String) : Option Nat :=
  assocGet d h

/-- Index assignment (`deduplicationIndex[hash] = idx`). -/
def setIdx (d : DeduplicationIndex) (h : String) (i : Nat) : DeduplicationIndex :=
  assocSet d h i

/-- Chunk capacity (`CHUNK_SIZE` in the source): games per chunk file. -/
def CHUNK_SIZE : Nat := 4000

/-- One chunk: its small sequential id and its ordered list of records. -/
structure Chunk where
  id : Nat
  games : List GameMetadata
  deriving Repr, DecidableEq

/-- The body of the `for (const game of games)` loop of `saveGamesToChunks`,
returning the list of chunk files written, in write order.  The current
chunk is flushed as soon as it is found at capacity, then a fresh chunk with
the next sequential id is opened; the final partial chunk is written last
(only when non-empty). -/
def saveLoop (current : Chunk) : List GameMetadata → List Chunk
  | [] => if current.games.length > 0 then [current] else []
  | g :: rest =>
    if current.games.length ≥ CHUNK_SIZE then
      current :: saveLoop { id := current.id + 1, games := [g] } rest
    else
      saveLoop { id := current.id, games := current.games ++ [g] } rest

/-- The call `saveGamesToChunks(games, indexesDir, existingLastChunk)`: the list of
chunk files the call writes.  With no games it writes nothing; otherwise it
starts from a copy of the existing last (open) chunk, or from a fresh
chunk 0. -/
def saveGamesToChunks (games : List GameMetadata) (existingLastChunk : Option Chunk) :
    List Chunk :=
  if games.isEmpty then []
  else saveLoop (existingLastChunk.getD { id := 0, games := [] }) games

/-- The chunk directory on disk: chunk id to content of `chunk-<id>.json`. -/
abbrev Dir := Nat → Option (List GameMetadata)

/-- The empty chunk directory. -/
def emptyDir : Dir := fun _ => none

/-- Persisting a list of chunk writes: each write replaces the file
`chunk-<id>.json` wholesale. -/
def writeChunks (d : Dir) (ws : List Chunk) : Dir :=
  ws.foldl (fun d c => fun i => if i = c.id then some c.games else d i) d

/-- One admission batch applied to a store whose chunks sit at contiguous
ids `0..n-1`: `loadExistingChunksData` yields the last chunk as the open
chunk, `saveGamesToChunks` rewrites it and appends the overflow chunks; all
earlier chunk files are untouched. -/
def applyBatch (store : List Chunk) (games : List GameMetadata) : List Chunk :=
  if games.isEmpty then store
  else store.dropLast ++ saveGamesToChunks games store.getLast?

/-- A whole admission history: batches applied one after the other to an
initially empty store. -/
def runBatches (batches : List (List GameMetadata)) : List Chunk :=
  batches.foldl applyBatch []

/-- The checkpointing loop of `discoverPgnmentorFiles`, at chunk-write
granularity, exactly as the source performs it: `lastChunk` is loaded once
before the loop and every periodic `saveGamesToChunks(allNewGames,
indexesDir, lastChunk)` call is made against that same (stale) value, with
`allNewGames` cleared after each save.  Each element of `batches` is the
content of `allNewGames` at one checkpoint. -/
def checkpointedSaves (d : Dir) (existingLastChunk : Option Chunk)
    (batches : List (List GameMetadata)) : Dir :=
  batches.foldl (fun d batch => writeChunks d (saveGamesToChunks batch existingLastChunk)) d

/-- One candidate game produced by `indexPgnGames`: its parsed headers (when
parsing produced any) and the extracted moves-only section of its PGN
text. -/
structure Candidate where
  headers : Option Headers
  movesOnly : String
  deriving Repr, DecidableEq

/-- The per-call counters of `processGames`. -/
structure Stats where
  total : Nat
  accepted : Nat
  rejected : Nat
  duplicates : Nat
  deriving Repr, DecidableEq

/-- The loop state of `processGames`: accepted games so far, the (mutated)
deduplication index, the next id to assign, and the counters. -/
structure ProcState where
  games : List GameMetadata
  dedup : DeduplicationIndex
  gameIndex : Nat
  stats : Stats
  deriving Repr, DecidableEq

/-- The record `processGames` builds for an accepted candidate: identity
and payload fields from the headers (with the source's fallback defaults),
the moves-only PGN section, the source provenance and the fingerprint. -/
def acceptedGame (h : Headers) (sourceFile : String) (movesOnly : String)
    (i : Nat) : GameMetadata :=
  { idx := i
    white := h.White.getD "Unknown"
    black := h.Black.getD "Unknown"
    whiteElo := h.WhiteElo.getD 0
    blackElo := h.BlackElo.getD 0
    result := h.Result.getD "*"
    date := h.Date.getD "????.??.??"
    event := h.Event.getD "Unknown"
    site := h.Site.getD "?"
    eco := h.ECO
    opening := h.Opening
    variation := h.Variation
    subVariation := h.SubVariation
    moves := movesOnly
    ply := 0
    source := "pgnmentor"
    sourceFile := sourceFile
    hash := hashGame h }

/-- The body of the candidate loop of `processGames`: reject a candidate
without headers, reject one failing the import filter, count a duplicate
when its fingerprint is already a key of the deduplication index, and
otherwise admit it — building its record, appending it, registering its
fingerprint and advancing the id counter. -/
def processOne (sourceFile : String) (s : ProcState) (c : Candidate) : ProcState :=
  let s := { s with stats := { s.stats with total := s.stats.total + 1 } }
  match c.headers with
  | none => { s with stats := { s.stats with rejected := s.stats.rejected + 1 } }
  | some h =>
    if ¬ shouldImportGame h then
      { s with stats := { s.stats with rejected := s.stats.rejected + 1 } }
    else if (lookupIdx s.dedup (hashGame h)).isSome then
      { s with stats := { s.stats with duplicates := s.stats.duplicates + 1 } }
    else
      { games := s.games ++ [acceptedGame h sourceFile c.movesOnly s.gameIndex]
        dedup := setIdx s.dedup (hashGame h) s.gameIndex
        gameIndex := s.gameIndex + 1
        stats := { s.stats with accepted := s.stats.accepted + 1 } }

/-- The call `processGames(pgnContent, sourceFile, deduplicationIndex, gameIndex)`:
fold the candidate loop over the indexed games of the file. -/
def processGames (cands : List Candidate) (sourceFile : String)
    (dedup : DeduplicationIndex) (gameIndex : Nat) : ProcState :=
  cands.foldl (processOne sourceFile)
    { games := [], dedup := dedup, gameIndex := gameIndex
      stats := { total := 0, accepted := 0, rejected := 0, duplicates := 0 } }

/-- The state threaded through a whole download run: the persisted chunk
store, the deduplication index and the next id. -/
structure PipeState where
  store : List Chunk
  dedup : DeduplicationIndex
  nextGameId : Nat

/-- One source file of a download run: `processGames` on its candidates,
then persistence of the accepted games into the chunk store.  This is the
run in which every accepted game is persisted (the store's last chunk is
the one the save starts from). -/
def pipelineStep (st : PipeState) (batch : String × List Candidate) : PipeState :=
  let r := processGames batch.2 batch.1 st.dedup st.nextGameId
  { store := applyBatch st.store r.games
    dedup := r.dedup
    nextGameId := r.gameIndex }

/-- A whole admission history at pipeline granularity, from an empty
dataset. -/
def runPipeline (batches : List (String × List Candidate)) : PipeState :=
  batches.foldl pipelineStep { store := [], dedup := [], nextGameId := 0 }

/-- The deduplication-index rebuild of `loadExistingChunksData`: scan every
chunk in id order and map each game's fingerprint to its id (games whose
`hash` field is falsy are skipped). -/
def rebuildDedup (store : List Chunk) : DeduplicationIndex :=
  ((store.map Chunk.games).flatten).foldl
    (fun d g => if g.hash ≠ "" then setIdx d g.hash g.idx else d) []

/-- The opening record returned by the eco.json lookup
(`lookupByMoves(...).opening` plus `movesBack`); `fen` is the reverse-map
entry `openingToFen.get(opening)`. -/
structure OpeningInfo where
  name : String
  eco : String
  fen : Option String
  movesBack : Nat
  deriving Repr, DecidableEq

/-- The external capabilities used by `enrichGamesWithEcoJson`:
`clean` is the regex pipeline turning a stored moves string into clean SAN
tokens, `replay` executes them on a fresh chess instance (`none` when some
move is invalid) returning the final position FEN, and `lookup` is
`lookupByMoves` against the opening book. -/
structure EnrichEnv where
  clean : String → List String
  replay : List String → Option String
  lookup : List String → Option OpeningInfo

/-- Per-record outcome of enrichment, as counted by the summary. -/
inductive EnrichOutcome
  | matched
  | unmatched
  | skipped
  deriving Repr, DecidableEq

/-- The expression `openingToFen.get(result.opening) || chess.fen()`: the reverse-map entry
when truthy, the replayed position otherwise. -/
def fenOrFallback (o : Option String) (fb : String) : String :=
  match o with
  | some s => if s = "" then fb else s
  | none => fb

/-- The body of the game loop of `enrichGamesWithEcoJson` for one record:
skip an already-annotated record outright; otherwise clean the moves text,
treat an empty move list or a failed replay as unmatched (the thrown
`Invalid move` error is caught and counted, the record untouched); on a
successful replay store the ply count and normalized moves, then consult the
opening lookup and either write the annotation group or count the record
unmatched.  The third component counts `lookupByMoves` invocations. -/
def enrichOne (env : EnrichEnv) (g : GameMetadata) :
    GameMetadata × EnrichOutcome × Nat :=
  if truthy g.ecoJsonFen then (g, EnrichOutcome.skipped, 0)
  else
    let cleanMoves := env.clean g.moves
    if cleanMoves.isEmpty then (g, EnrichOutcome.unmatched, 0)
    else
      match env.replay cleanMoves with
      | none => (g, EnrichOutcome.unmatched, 0)
      | some fen =>
        let g2 := { g with ply := cleanMoves.length
                           moves := String.intercalate " " cleanMoves }
        match env.lookup cleanMoves with
        | some op =>
          ({ g2 with ecoJsonFen := some (fenOrFallback op.fen fen)
                     ecoJsonOpening := some op.name
                     ecoJsonEco := some op.eco
                     movesBack := some op.movesBack }, EnrichOutcome.matched, 1)
        | none => (g2, EnrichOutcome.unmatched, 1)

/-- The result of one `enrichGamesWithEcoJson` run: the record set (updated
in place in the source) and the summary counters, plus the number of
opening lookups performed. -/
structure EnrichResult where
  games : List GameMetadata
  matched : Nat
  unmatched : Nat
  skipped : Nat
  lookups : Nat
  deriving Repr, DecidableEq

/-- Folding one record into the running enrichment state. -/
def enrichStep (env : EnrichEnv) (st : EnrichResult) (g : GameMetadata) :
    EnrichResult :=
  let r := enrichOne env g
  { games := st.games ++ [r.1]
    matched := st.matched + (if r.2.1 = EnrichOutcome.matched then 1 else 0)
    unmatched := st.unmatched + (if r.2.1 = EnrichOutcome.unmatched then 1 else 0)
    skipped := st.skipped + (if r.2.1 = EnrichOutcome.skipped then 1 else 0)
    lookups := st.lookups + r.2.2 }

/-- The call `enrichGamesWithEcoJson(games, openings, positionBook)`. -/
def enrichGamesWithEcoJson (env : EnrichEnv) (games : List GameMetadata) :
    EnrichResult :=
  games.foldl (enrichStep env)
    { games := [], matched := 0, unmatched := 0, skipped := 0, lookups := 0 }

/-- The record a game object holds after the in-place enrichment pass. -/
def enrichedGame (env : EnrichEnv) (g : GameMetadata) : GameMetadata :=
  (enrichOne env g).1

/-- The per-chunk save decision of `buildIndexes`: rewrite the chunk file
with the (in-place enriched) games when the chunk holds a newly enriched
game, keep the on-disk content otherwise. -/
def buildIndexesSaveChunk (env : EnrichEnv) (enrichedHashes : List String) (c : Chunk) :
    Chunk :=
  let newGames := c.games.map (enrichedGame env)
  if newGames.any (fun g => g.hash != "" && enrichedHashes.contains g.hash) then
    { id := c.id, games := newGames }
  else c

/-- The chunk-saving stage of `buildIndexes`: load chunks preserving
membership, enrich all games in place, then rewrite exactly those chunk
files containing newly enriched games (a chunk with none keeps its on-disk
content). -/
def buildIndexesChunkFiles (env : EnrichEnv) (loadedChunks : List Chunk) :
    List Chunk :=
  let allGames := (loadedChunks.map Chunk.games).flatten
  let originallyEnriched :=
    (allGames.filter (fun g => truthy g.ecoJsonFen && g.hash != "")).map GameMetadata.hash
  let allEnriched := allGames.map (enrichedGame env)
  let enrichedHashes :=
    (allEnriched.filter (fun g =>
      truthy g.ecoJsonFen && g.hash != "" && !(originallyEnriched.contains g.hash))).map
      GameMetadata.hash
  loadedChunks.map (buildIndexesSaveChunk env enrichedHashes)

/-- One entry of the player index: game-id lists for each color and the
total. -/
structure PlayerEntry where
  asWhite : List Nat
  asBlack : List Nat
  totalGames : Nat
  deriving Repr, DecidableEq

/-- The player index object, keyed by normalized player name. -/
abbrev PlayerIndex := List (String × PlayerEntry)

/-- Name normalization used by `buildPlayerIndex`:
`name.toLowerCase().trim()`. -/
def normName (s : String) : String := s.toLower.trim

/-- The white-player half of the loop body: create the entry on first
sight, then push the game id and bump the total. -/
def addWhite (ix : PlayerIndex) (n : String) (i : Nat) : PlayerIndex :=
  let e := (assocGet ix n).getD { asWhite := [], asBlack := [], totalGames := 0 }
  assocSet ix n
    { asWhite := e.asWhite ++ [i], asBlack := e.asBlack, totalGames := e.totalGames + 1 }

/-- The black-player half of the loop body. -/
def addBlack (ix : PlayerIndex) (n : String) (i : Nat) : PlayerIndex :=
  let e := (assocGet ix n).getD { asWhite := [], asBlack := [], totalGames := 0 }
  assocSet ix n
    { asWhite := e.asWhite, asBlack := e.asBlack ++ [i], totalGames := e.totalGames + 1 }

/-- The loop body of `buildPlayerIndex` for one game: index the white
player (when the field is truthy), then the black player. -/
def playerStep (ix : PlayerIndex) (g : GameMetadata) : PlayerIndex :=
  let ix2 := if g.white ≠ "" then addWhite ix (normName g.white) g.idx else ix
  if g.black ≠ "" then addBlack ix2 (normName g.black) g.idx else ix2

/-- The call `buildPlayerIndex(games)`. -/
def buildPlayerIndex (games : List GameMetadata) : PlayerIndex :=
  games.foldl playerStep []

/-- The entry actually stored under a name, defaulting to the fresh entry. -/
def entryAt (ix : PlayerIndex) (n : String) : PlayerEntry :=
  (assocGet ix n).getD { asWhite := [], asBlack := [], totalGames := 0 }

/-- Specification view: the ids of the games a given normalized name plays
as white, in admission order. -/
def whiteIds (games : List GameMetadata) (n : String) : List Nat :=
  (games.filter (fun g => decide (g.white ≠ "" ∧ normName g.white = n))).map
    GameMetadata.idx

/-- Specification view: the ids of the games a given normalized name plays
as black, in admission order. -/
def blackIds (games : List GameMetadata) (n : String) : List Nat :=
  (games.filter (fun g => decide (g.black ≠ "" ∧ normName g.black = n))).map
    GameMetadata.idx

/-- The remote blob store: key to content. -/
abbrev BlobStore := List (String × String)

/-- The local artifact directory: filename to content. -/
abbrev LocalFiles := List (String × String)

/-- Key layout of the store: everything under the `indexes/` prefix. -/
def blobKey (filename : String) : String := "indexes/" ++ filename

/-- The size `Buffer.byteLength(content, "utf-8")` (and `fs.statSync(...).size`) of a
text file: its UTF-8 byte size. -/
def byteSize (s : String) : Nat := s.utf8ByteSize

/-- A `newFiles` entry of `uploadToBlobs` (the content stands in for the
size-and-key record; its size is `byteSize content`). -/
structure NewFileEntry where
  filename : String
  content : String
  deriving Repr, DecidableEq

/-- A `modifiedFiles` entry of `uploadToBlobs`, with the byte-size delta. -/
structure ModifiedFileEntry where
  filename : String
  content : String
  localSize : Nat
  remoteSize : Nat
  sizeDiff : Int
  deriving Repr, DecidableEq

/-- An `unchangedFiles` entry of `uploadToBlobs`. -/
structure UnchangedFileEntry where
  filename : String
  size : Nat
  deriving Repr, DecidableEq

/-- The three categories the plan stage computes. -/
structure UploadPlan where
  newFiles : List NewFileEntry
  modifiedFiles : List ModifiedFileEntry
  unchangedFiles : List UnchangedFileEntry
  deriving Repr, DecidableEq

/-- The `newFiles` entry built for a local file. -/
def newEntry (f : String × String) : NewFileEntry :=
  { filename := f.1, content := f.2 }

/-- The `modifiedFiles` entry built for a local file and the remote content
it differs from. -/
def modifiedEntry (f : String × String) (remoteContent : String) : ModifiedFileEntry :=
  { filename := f.1, content := f.2, localSize := byteSize f.2
    remoteSize := byteSize remoteContent
    sizeDiff := (byteSize f.2 : Int) - (byteSize remoteContent : Int) }

/-- The `unchangedFiles` entry built for a local file. -/
def unchangedEntry (f : String × String) : UnchangedFileEntry :=
  { filename := f.1, size := byteSize f.2 }

/-- The categorization loop body of `uploadToBlobs` for one local file: it
is New when no blob with its key exists, Modified when the remote content
differs from the local content (recording the byte-size delta), Unchanged
otherwise. -/
def classifyStep (remote : BlobStore) (plan : UploadPlan) (f : String × String) :
    UploadPlan :=
  match assocGet remote (blobKey f.1) with
  | none =>
    { plan with newFiles := plan.newFiles ++ [newEntry f] }
  | some remoteContent =>
    if f.2 ≠ remoteContent then
      { plan with modifiedFiles := plan.modifiedFiles ++ [modifiedEntry f remoteContent] }
    else
      { plan with unchangedFiles := plan.unchangedFiles ++ [unchangedEntry f] }

/-- The Modified entry a local file yields against the remote store, when
any. -/
def modEntryOf (remote : BlobStore) (f : String × String) : Option ModifiedFileEntry :=
  match assocGet remote (blobKey f.1) with
  | some rc => if f.2 ≠ rc then some (modifiedEntry f rc) else none
  | none => none

/-- The Unchanged entry a local file yields against the remote store, when
any. -/
def unchEntryOf (remote : BlobStore) (f : String × String) : Option UnchangedFileEntry :=
  match assocGet remote (blobKey f.1) with
  | some rc => if f.2 = rc then some (unchangedEntry f) else none
  | none => none

/-- The categorization loop of `uploadToBlobs`. -/
def classifyFiles (localFiles : LocalFiles) (remote : BlobStore) : UploadPlan :=
  localFiles.foldl (classifyStep remote)
    { newFiles := [], modifiedFiles := [], unchangedFiles := [] }

/-- The outcome of one `uploadToBlobs` run. -/
structure UploadResult where
  plan : UploadPlan
  uploaded : List (String × String)
  remoteAfter : BlobStore
  nothingToUpload : Bool
  deriving Repr, DecidableEq

/-- The script `uploadToBlobs`: plan, then — unless the New and Modified sets are both
empty (in which case it reports that everything is up to date and uploads
nothing) and only on explicit confirmation — upload exactly the New and
Modified artifacts. -/
def uploadToBlobs (localFiles : LocalFiles) (remote : BlobStore) (confirmed : Bool) :
    UploadResult :=
  let plan := classifyFiles localFiles remote
  if plan.newFiles.isEmpty && plan.modifiedFiles.isEmpty then
    { plan := plan, uploaded := [], remoteAfter := remote, nothingToUpload := true }
  else if !confirmed then
    { plan := plan, uploaded := [], remoteAfter := remote, nothingToUpload := false }
  else
    let ups := plan.newFiles.map (fun e => (blobKey e.filename, e.content)) ++
      plan.modifiedFiles.map (fun e => (blobKey e.filename, e.content))
    { plan := plan
      uploaded := ups
      remoteAfter := ups.foldl (fun st p => assocSet st p.1 p.2) remote
      nothingToUpload := false }

/-- A concrete record builder, used to instantiate theorems on concrete
inputs. -/
def mkGame (i : Nat) : GameMetadata :=
  { idx := i, white := "w", black := "b", whiteElo := 0, blackElo := 0
    result := "1-0", date := "2024.01.01", event := "e", site := "s"
    eco := none, opening := none, variation := none, subVariation := none
    moves := "", ply := 0, source := "pgnmentor", sourceFile := "f.zip"
    hash := "h" }

/-- A concrete trivial enrichment environment, used to instantiate theorems
on concrete inputs. -/
def trivEnv : EnrichEnv :=
  { clean := fun _ => [], replay := fun _ => none, lookup := fun _ => none }

/-- A concrete already-annotated record, used to instantiate theorems. -/
def mkGameEnr : GameMetadata := { mkGame 0 with ecoJsonFen := some "fen0" }

/-- The fingerprint-relevant view of a persisted game: the entry
`loadExistingChunksData` rebuilds for it. -/
def gamePair (g : GameMetadata) : String × Nat := (g.hash, g.idx)

/-- All persisted games in chunk-id order. -/
def storeFlatten (store : List Chunk) : List GameMetadata :=
  (store.map Chunk.games).flatten

/-- The relation between the persisted chunk store and the incrementally
maintained deduplication index along a run: the index is exactly the
fingerprint-to-id view of the persisted games, every persisted game has a
truthy fingerprint, and the index keys are pairwise distinct. -/
def PipeInv (st : PipeState) : Prop :=
  st.dedup = (storeFlatten st.store).map gamePair ∧
  (∀ g ∈ storeFlatten st.store, g.hash ≠ "") ∧
  (st.dedup.map Prod.fst).Nodup

/-- A concrete headers record, used to instantiate theorems. -/
def hdrW : Headers :=
  { White := some "x", Black := some "y", WhiteElo := none, BlackElo := none
    Result := some "1-0", Date := some "2024.01.01", Event := none, Site := none
    ECO := none, Opening := none, Variation := none, SubVariation := none }

/-- A concrete candidate carrying `hdrW`, used to instantiate theorems. -/
def candW : Candidate := { headers := some hdrW, movesOnly := "1. e4 e5" }

/-- A concrete empty processing state, used to instantiate theorems. -/
def procStateW0 : ProcState :=
  { games := [], dedup := [], gameIndex := 0
    stats := { total := 0, accepted := 0, rejected := 0, duplicates := 0 } }

/-- A concrete processing state whose index already contains the
fingerprint of `hdrW`, used to instantiate theorems. -/
def procStateWdup : ProcState :=
  { games := [], dedup := [("x|y|1-0|2024.01.01", 5)], gameIndex := 7
    stats := { total := 0, accepted := 0, rejected := 0, duplicates := 0 } }

/-
Theorems.  First the generic association-list lemmas, then lemmas about the
chunk store, then the claim theorems.
-/

theorem assocGet_nil {β : Type} (k : String) : assocGet ([] : List (String × β)) k = none := rfl

theorem assocGet_cons {β : Type} (p : String × β) (l : List (String × β)) (k : String) :
    assocGet (p :: l) k = if p.1 = k then some p.2 else assocGet l k := by
  by_cases hp : p.1 = k <;> simp [assocGet, List.find?, hp]

/-- Assigning an absent key appends the new entry at the end. -/
theorem assocSet_of_absent {β : Type} (l : List (String × β)) (k : String) (v : β)
    (ha : assocGet l k = none) : assocSet l k v = l ++ [(k, v)] := by
  induction l with
  | nil => rfl
  | cons p rest ih =>
    rw [assocGet_cons] at ha
    by_cases hp : p.1 = k
    · simp [hp] at ha
    · simp only [assocSet, if_neg hp, List.cons_append, List.cons.injEq, true_and]
      exact ih (by simpa [hp] using ha)

theorem assocGet_append_of_absent {β : Type} (l l' : List (String × β)) (k : String)
    (ha : assocGet l k = none) : assocGet (l ++ l') k = assocGet l' k := by
  induction l with
  | nil => simp
  | cons p rest ih =>
    rw [assocGet_cons] at ha
    by_cases hp : p.1 = k
    · simp [hp] at ha
    · rw [List.cons_append, assocGet_cons, if_neg hp]
      exact ih (by simpa [hp] using ha)

/-- The fingerprint encoding always contains the separator, hence is never
the empty string (a real hash digest is likewise never empty). -/
theorem hashGame_ne_empty (h : Headers) : hashGame h ≠ "" := by
  intro hc
  have hlen := congrArg String.length hc
  simp [hashGame, String.length_append] at hlen
  have hbar : ("|" : String).length = 0 := by tauto
  exact absurd hbar (by decide)

/-- Every chunk written by `saveLoop` carries an id at least the id of the
chunk the loop starts from. -/
theorem saveLoop_id_ge (current : Chunk) (gs : List GameMetadata) :
    ∀ c ∈ saveLoop current gs, current.id ≤ c.id := by
  induction gs generalizing current with
  | nil =>
    intro c hc
    by_cases hl : current.games.length > 0 <;> simp [saveLoop, hl] at hc
    subst hc; exact le_refl _
  | cons g rest ih =>
    intro c hc
    by_cases hfull : current.games.length ≥ CHUNK_SIZE
    · simp only [saveLoop, if_pos hfull, List.mem_cons] at hc
      rcases hc with rfl | hc
      · exact le_refl _
      · exact le_trans (Nat.le_succ _) (ih _ _ hc)
    · simp only [saveLoop, if_neg hfull] at hc
      exact ih { id := current.id, games := current.games ++ [g] } c hc

/-- A write batch touching only ids at least `n` leaves every file with a
smaller id untouched. -/
theorem writeChunks_lt (d : Dir) (ws : List Chunk) (k : Nat)
    (hk : ∀ c ∈ ws, k < c.id) : writeChunks d ws k = d k := by
  induction ws generalizing d with
  | nil => rfl
  | cons c rest ih =>
    have hkc := hk c (List.mem_cons_self _ _)
    have : writeChunks d (c :: rest) = writeChunks (fun i => if i = c.id then some c.games else d i) rest := rfl
    rw [this, ih _ (fun c' hc' => hk c' (List.mem_cons_of_mem _ hc'))]
    simp [Nat.ne_of_lt hkc]

/-- Contents flushed by `saveLoop`: concatenating the games of all written
chunks yields the starting chunk's games followed by the appended batch. -/
theorem saveLoop_flatten (current : Chunk) (gs : List GameMetadata)
    (hne : current.games ≠ [] ∨ gs ≠ []) :
    ((saveLoop current gs).map Chunk.games).flatten = current.games ++ gs := by
  induction gs generalizing current with
  | nil =>
    rcases hne with hne | hne
    · have : current.games.length > 0 := List.length_pos.mpr hne
      simp [saveLoop, this]
    · exact absurd rfl hne
  | cons g rest ih =>
    by_cases hfull : current.games.length ≥ CHUNK_SIZE
    · simp only [saveLoop, if_pos hfull, List.map_cons, List.flatten_cons]
      rw [ih { id := current.id + 1, games := [g] } (Or.inl (by simp))]
      simp
    · simp only [saveLoop, if_neg hfull]
      rw [ih { id := current.id, games := current.games ++ [g] } (Or.inl (by simp))]
      simp

/-- When the starting chunk has room for the whole batch, `saveLoop` writes
exactly one chunk holding everything. -/
theorem saveLoop_no_overflow (current : Chunk) (gs : List GameMetadata)
    (hcap : current.games.length + gs.length ≤ CHUNK_SIZE)
    (hne : current.games ≠ [] ∨ gs ≠ []) :
    saveLoop current gs = [{ id := current.id, games := current.games ++ gs }] := by
  induction gs generalizing current with
  | nil =>
    rcases hne with hne | hne
    · have : current.games.length > 0 := List.length_pos.mpr hne
      simp [saveLoop, this]
    · exact absurd rfl hne
  | cons g rest ih =>
    have hcap' : current.games.length + (1 + rest.length) ≤ CHUNK_SIZE := by
      simpa [Nat.add_comm] using hcap
    have hlt : ¬ current.games.length ≥ CHUNK_SIZE := by omega
    simp only [saveLoop, if_neg hlt]
    rw [ih { id := current.id, games := current.games ++ [g] }
      (by simp only [List.length_append, List.length_cons, List.length_nil]; omega)
      (Or.inl (by simp))]
    simp

/-- Every chunk written by `saveLoop` respects the capacity, provided the
starting chunk does. -/
theorem saveLoop_capacity (current : Chunk) (gs : List GameMetadata)
    (hcap : current.games.length ≤ CHUNK_SIZE) :
    ∀ c ∈ saveLoop current gs, c.games.length ≤ CHUNK_SIZE := by
  induction gs generalizing current with
  | nil =>
    intro c hc
    by_cases hl : current.games.length > 0 <;> simp [saveLoop, hl] at hc
    subst hc; exact hcap
  | cons g rest ih =>
    intro c hc
    by_cases hfull : current.games.length ≥ CHUNK_SIZE
    · simp only [saveLoop, if_pos hfull, List.mem_cons] at hc
      rcases hc with rfl | hc
      · exact hcap
      · refine ih { id := current.id + 1, games := [g] } ?_ c hc
        simp [CHUNK_SIZE]
    · simp only [saveLoop, if_neg hfull] at hc
      refine ih { id := current.id, games := current.games ++ [g] } ?_ c hc
      simp only [List.length_append, List.length_cons, List.length_nil]
      omega

/-- Admitting one batch never pushes any chunk past the capacity, provided
no existing chunk is past it. -/
theorem applyBatch_capacity (store : List Chunk) (games : List GameMetadata)
    (h : ∀ c ∈ store, c.games.length ≤ CHUNK_SIZE) :
    ∀ c ∈ applyBatch store games, c.games.length ≤ CHUNK_SIZE := by
  intro c hc
  unfold applyBatch at hc
  by_cases hg : games.isEmpty
  · rw [if_pos hg] at hc; exact h c hc
  · rw [if_neg hg] at hc
    rw [List.mem_append] at hc
    rcases hc with hc | hc
    · exact h c (List.dropLast_subset _ hc)
    · unfold saveGamesToChunks at hc
      rw [if_neg hg] at hc
      refine saveLoop_capacity _ games ?_ c hc
      cases hl : store.getLast? with
      | none => simp
      | some lc =>
        simp only [Option.getD_some]
        obtain ⟨hne, heq⟩ := List.mem_getLast?_eq_getLast (l := store) (x := lc)
          (by simp [hl])
        rw [heq]
        exact h _ (List.getLast_mem hne)

/-- The capacity invariant holds along any admission history. -/
theorem foldlBatches_capacity (batches : List (List GameMetadata)) :
    ∀ store, (∀ c ∈ store, c.games.length ≤ CHUNK_SIZE) →
      ∀ c ∈ batches.foldl applyBatch store, c.games.length ≤ CHUNK_SIZE := by
  induction batches with
  | nil => intro store h; simpa using h
  | cons b rest ih =>
    intro store h
    exact ih _ (applyBatch_capacity store b h)

/-- From an empty store, a batch that fits in one chunk is saved as the
single chunk 0. -/
theorem saveGames_empty_store (gs : List GameMetadata)
    (hcap : gs.length ≤ CHUNK_SIZE) (hne : gs ≠ []) :
    saveGamesToChunks gs none = [{ id := 0, games := gs }] := by
  unfold saveGamesToChunks
  rw [if_neg (by simpa [List.isEmpty_iff] using hne)]
  simpa using saveLoop_no_overflow { id := 0, games := [] } gs (by simpa using hcap)
    (Or.inr hne)

/-- Appending a single game to a full last chunk rewrites the full chunk
unchanged and writes the game into a fresh next chunk. -/
theorem saveGames_full_last (gs : List GameMetadata) (g : GameMetadata) (k : Nat)
    (hfull : gs.length ≥ CHUNK_SIZE) :
    saveGamesToChunks [g] (some { id := k, games := gs }) =
      [{ id := k, games := gs }, { id := k + 1, games := [g] }] := by
  unfold saveGamesToChunks
  rw [if_neg (by simp)]
  simp [saveLoop, hfull]

/-- A two-batch history that exactly fills chunk 0 and then overflows into
chunk 1. -/
theorem runBatches_fill_roll (gs : List GameMetadata) (g : GameMetadata)
    (hlen : gs.length = CHUNK_SIZE) :
    runBatches [gs, [g]] =
      [{ id := 0, games := gs }, { id := 1, games := [g] }] := by
  have hne : gs ≠ [] := by
    intro h
    rw [h] at hlen
    simp [CHUNK_SIZE] at hlen
  unfold runBatches
  simp only [List.foldl_cons, List.foldl_nil]
  have h1 : applyBatch [] gs = [{ id := 0, games := gs }] := by
    unfold applyBatch
    rw [if_neg (by simpa [List.isEmpty_iff] using hne)]
    simpa using saveGames_empty_store gs (le_of_eq hlen) hne
  rw [h1]
  unfold applyBatch
  rw [if_neg (by simp)]
  simpa using saveGames_full_last gs g 0 (le_of_eq hlen.symm)

/-- The record an enriched game object holds keeps its id: enrichment only
writes the annotation group, the ply count and the normalized moves. -/
theorem enrichedGame_idx (env : EnrichEnv) (g : GameMetadata) :
    (enrichedGame env g).idx = g.idx := by
  simp only [enrichedGame, enrichOne]
  split
  · rfl
  · split
    · rfl
    · split
      · rfl
      · split
        · rfl
        · rfl

/-- Saving one chunk during `buildIndexes` preserves the chunk id and the
ids of the records it contains. -/
theorem buildIndexesSaveChunk_ids (env : EnrichEnv) (hs : List String) (c : Chunk) :
    ((buildIndexesSaveChunk env hs c).id,
      (buildIndexesSaveChunk env hs c).games.map GameMetadata.idx) =
      (c.id, c.games.map GameMetadata.idx) := by
  simp only [buildIndexesSaveChunk]
  have hfun : (fun g => (enrichedGame env g).idx) = GameMetadata.idx :=
    funext (enrichedGame_idx env)
  split
  · simp only [Prod.mk.injEq, true_and, List.map_map]
    rw [show (GameMetadata.idx ∘ enrichedGame env) = fun g => (enrichedGame env g).idx from rfl,
      hfun]
  · rfl

/-- The whole chunk-saving stage of `buildIndexes` preserves, chunk file by
chunk file, the chunk id and the record ids it contains. -/
theorem buildIndexes_preserves_ids (env : EnrichEnv) (cs : List Chunk) :
    (buildIndexesChunkFiles env cs).map
        (fun c => (c.id, c.games.map GameMetadata.idx)) =
      cs.map (fun c => (c.id, c.games.map GameMetadata.idx)) := by
  unfold buildIndexesChunkFiles
  rw [List.map_map]
  exact List.map_congr_left fun c _ => buildIndexesSaveChunk_ids env _ c

/-- C1: every closed chunk (any chunk with an id below the open chunk's) has
exactly the same persisted content before and after any later admission
batch performed by `saveGamesToChunks` — the batch writes only the open
chunk and freshly created chunks — and every chunk file written by the
rebuild stage of `buildIndexes` keeps its chunk id and its record ids, so no
record ever migrates between chunks under normal operation. -/
theorem c1_closed_chunks_stable (d : Dir) (lc : Chunk) (gs : List GameMetadata)
    (k : Nat) (hk : k < lc.id) (env : EnrichEnv) (cs : List Chunk) :
    writeChunks d (saveGamesToChunks gs (some lc)) k = d k ∧
    (buildIndexesChunkFiles env cs).map
        (fun c => (c.id, c.games.map GameMetadata.idx)) =
      cs.map (fun c => (c.id, c.games.map GameMetadata.idx)) := by
  constructor
  · apply writeChunks_lt
    intro c hc
    unfold saveGamesToChunks at hc
    by_cases hg : gs.isEmpty
    · rw [if_pos hg] at hc; simp at hc
    · rw [if_neg hg] at hc
      have hle := saveLoop_id_ge _ gs c hc
      simp only [Option.getD_some] at hle
      omega
  · exact buildIndexes_preserves_ids env cs

/-- Witness for C1 at a concrete instance. -/
theorem c1_closed_chunks_stable_witness :
    (0 : Nat) < (({ id := 1, games := [] } : Chunk)).id ∧
    (writeChunks emptyDir
        (saveGamesToChunks [mkGame 0] (some { id := 1, games := [] })) 0 = emptyDir 0 ∧
      (buildIndexesChunkFiles trivEnv [{ id := 0, games := [mkGame 0] }]).map
          (fun c => (c.id, c.games.map GameMetadata.idx)) =
        [({ id := 0, games := [mkGame 0] } : Chunk)].map
          (fun c => (c.id, c.games.map GameMetadata.idx))) :=
  ⟨by decide, c1_closed_chunks_stable emptyDir { id := 1, games := [] } [mkGame 0] 0
    (by decide) trivEnv [{ id := 0, games := [mkGame 0] }]⟩

/-- C2: starting from an empty store, admitting a batch of exactly 4,000
records produces exactly one chunk file, chunk 0, which is full; admitting
one further record then rewrites chunk 0 with unchanged contents and
creates chunk 1 containing exactly that one record. -/
theorem c2_fill_then_rollover (gs : List GameMetadata) (g : GameMetadata)
    (hlen : gs.length = CHUNK_SIZE) :
    saveGamesToChunks gs none = [{ id := 0, games := gs }] ∧
    ({ id := 0, games := gs } : Chunk).games.length = CHUNK_SIZE ∧
    saveGamesToChunks [g] (some { id := 0, games := gs }) =
      [{ id := 0, games := gs }, { id := 1, games := [g] }] := by
  have hne : gs ≠ [] := by
    intro h
    rw [h] at hlen
    simp [CHUNK_SIZE] at hlen
  exact ⟨saveGames_empty_store gs (le_of_eq hlen) hne, hlen,
    saveGames_full_last gs g 0 (le_of_eq hlen.symm)⟩

/-- Witness for C2 at a concrete batch of 4,000 records. -/
theorem c2_fill_then_rollover_witness :
    ((List.range CHUNK_SIZE).map mkGame).length = CHUNK_SIZE ∧
    (saveGamesToChunks ((List.range CHUNK_SIZE).map mkGame) none =
        [{ id := 0, games := (List.range CHUNK_SIZE).map mkGame }] ∧
      ({ id := 0, games := (List.range CHUNK_SIZE).map mkGame } : Chunk).games.length =
        CHUNK_SIZE ∧
      saveGamesToChunks [mkGame CHUNK_SIZE]
          (some { id := 0, games := (List.range CHUNK_SIZE).map mkGame }) =
        [{ id := 0, games := (List.range CHUNK_SIZE).map mkGame },
         { id := 1, games := [mkGame CHUNK_SIZE] }]) :=
  ⟨by simp, c2_fill_then_rollover ((List.range CHUNK_SIZE).map mkGame)
    (mkGame CHUNK_SIZE) (by simp)⟩

/-- C3: after any sequence of admissions via `saveGamesToChunks` starting
from an empty store, no persisted chunk other than possibly the
currently-open (last) one holds more than the configured capacity of 4,000
records. -/
theorem c3_capacity_bound (batches : List (List GameMetadata)) (c : Chunk)
    (hc : c ∈ (runBatches batches).dropLast) :
    c.games.length ≤ CHUNK_SIZE :=
  foldlBatches_capacity batches [] (by simp) c (List.dropLast_subset _ hc)

/-- Witness for C3 on a history producing one closed and one open chunk. -/
theorem c3_capacity_bound_witness :
    ({ id := 0, games := (List.range CHUNK_SIZE).map mkGame } : Chunk) ∈
      (runBatches [(List.range CHUNK_SIZE).map mkGame, [mkGame CHUNK_SIZE]]).dropLast ∧
    ({ id := 0, games := (List.range CHUNK_SIZE).map mkGame } : Chunk).games.length ≤
      CHUNK_SIZE := by
  have hmem : ({ id := 0, games := (List.range CHUNK_SIZE).map mkGame } : Chunk) ∈
      (runBatches [(List.range CHUNK_SIZE).map mkGame, [mkGame CHUNK_SIZE]]).dropLast := by
    rw [runBatches_fill_roll _ _ (by simp)]
    simp
  exact ⟨hmem, c3_capacity_bound _ _ hmem⟩

/-- C9 (code bug): the checkpoint loop of `discoverPgnmentorFiles` passes
the same stale `lastChunk` (loaded once, before the loop) to every periodic
`saveGamesToChunks` call while clearing `allNewGames` after each save, so a
later checkpoint rewrites the chunk files of an earlier one from the stale
base: a game persisted at checkpoint 1 is absent from every chunk file after
checkpoint 2, contradicting the at-most-K-files-lost guarantee. -/
theorem c9_checkpoint_overwrites_earlier_checkpoint :
    checkpointedSaves emptyDir none [[mkGame 0]] 0 = some [mkGame 0] ∧
    checkpointedSaves emptyDir none [[mkGame 0], [mkGame 1]] 0 = some [mkGame 1] ∧
    (∀ k gs, checkpointedSaves emptyDir none [[mkGame 0], [mkGame 1]] k = some gs →
      mkGame 0 ∉ gs) := by
  have e0 : saveGamesToChunks [mkGame 0] none = [{ id := 0, games := [mkGame 0] }] := by
    apply saveGames_empty_store <;> simp [CHUNK_SIZE]
  have e1 : saveGamesToChunks [mkGame 1] none = [{ id := 0, games := [mkGame 1] }] := by
    apply saveGames_empty_store <;> simp [CHUNK_SIZE]
  refine ⟨?_, ?_, ?_⟩
  · simp [checkpointedSaves, e0, writeChunks, emptyDir]
  · simp [checkpointedSaves, e0, e1, writeChunks, emptyDir]
  · intro k gs h
    simp only [checkpointedSaves, List.foldl_cons, List.foldl_nil, e0, e1,
      writeChunks] at h
    by_cases hk : k = 0
    · subst hk
      simp only [List.foldl_cons, List.foldl_nil, if_pos rfl] at h
      cases h
      decide
    · simp only [List.foldl_cons, List.foldl_nil, if_neg hk, emptyDir] at h
      cases h

theorem assocGet_assocSet {β : Type} (l : List (String × β)) (k k' : String) (v : β) :
    assocGet (assocSet l k v) k' = if k = k' then some v else assocGet l k' := by
  induction l with
  | nil =>
    by_cases hk : k = k' <;> simp [assocSet, assocGet_cons, hk]
  | cons p rest ih =>
    obtain ⟨a, b⟩ := p
    by_cases ha : a = k
    · subst ha
      have hset : assocSet ((a, b) :: rest) a v = (a, v) :: rest := by
        simp [assocSet]
      rw [hset, assocGet_cons, assocGet_cons]
      by_cases hk : a = k' <;> simp [hk]
    · simp only [assocSet, if_neg ha]
      rw [assocGet_cons, assocGet_cons, ih]
      by_cases hak : a = k'
      · have hkk : ¬ k = k' := fun hcon => ha (hak.trans hcon.symm)
        rw [if_pos hak, if_pos hak, if_neg hkk]
      · rw [if_neg hak, if_neg hak]

theorem assocGet_eq_none_iff {β : Type} (l : List (String × β)) (k : String) :
    assocGet l k = none ↔ k ∉ l.map Prod.fst := by
  induction l with
  | nil => simp [assocGet]
  | cons p rest ih =>
    rw [assocGet_cons]
    by_cases hp : p.1 = k
    · simp [hp]
    · simp only [if_neg hp, ih, List.map_cons, List.mem_cons]
      constructor
      · intro h hc
        rcases hc with hc | hc
        · exact hp hc.symm
        · exact h hc
      · intro h hc
        exact h (Or.inr hc)

/-- Processing a candidate whose fingerprint is already a key of the
deduplication index only bumps the total and duplicate counters: the game
list, the index and the next id are untouched. -/
theorem processOne_duplicate (f : String) (s : ProcState) (c : Candidate)
    (h : Headers) (hc : c.headers = some h) (himp : shouldImportGame h = true)
    (hdup : (lookupIdx s.dedup (hashGame h)).isSome = true) :
    processOne f s c =
      { s with stats := { s.stats with
          total := s.stats.total + 1
          duplicates := s.stats.duplicates + 1 } } := by
  simp [processOne, hc, himp, hdup]

/-- Processing an importable candidate whose fingerprint is absent appends
exactly one record carrying the next id, registers the fingerprint and
advances the id. -/
theorem processOne_accepted_shape (f : String) (s : ProcState) (c : Candidate)
    (h : Headers) (hc : c.headers = some h) (himp : shouldImportGame h = true)
    (habs : lookupIdx s.dedup (hashGame h) = none) :
    (processOne f s c).games.length = s.games.length + 1 ∧
    (processOne f s c).dedup = setIdx s.dedup (hashGame h) s.gameIndex ∧
    (processOne f s c).gameIndex = s.gameIndex + 1 := by
  simp [processOne, hc, himp, habs]

/-- C4: in `processGames`, the duplicate check against the deduplication
index happens strictly before any id assignment or append — a candidate
whose header fingerprint is already a key is counted as a duplicate,
receives no id, is not appended, and leaves the index and the next id
unchanged — and two candidates with identical identity headers from two
different source files get the same fingerprint, so after the first is
admitted the second is rejected as a duplicate and the record count is
unchanged. -/
theorem c4_dedup_before_admission
    (fg : String) (sg : ProcState) (cg : Candidate) (hg : Headers)
    (hcg : cg.headers = some hg) (himpg : shouldImportGame hg = true)
    (hdupg : (lookupIdx sg.dedup (hashGame hg)).isSome = true)
    (f1 f2 : String) (s : ProcState) (c1 c2 : Candidate) (h : Headers)
    (h1 : c1.headers = some h) (h2 : c2.headers = some h)
    (himp : shouldImportGame h = true)
    (habs : lookupIdx s.dedup (hashGame h) = none) :
    ((processOne fg sg cg).games = sg.games ∧
      (processOne fg sg cg).gameIndex = sg.gameIndex ∧
      (processOne fg sg cg).dedup = sg.dedup ∧
      (processOne fg sg cg).stats.duplicates = sg.stats.duplicates + 1) ∧
    ((processOne f1 s c1).games.length = s.games.length + 1 ∧
      (processOne f2 (processOne f1 s c1) c2).games = (processOne f1 s c1).games ∧
      (processOne f2 (processOne f1 s c1) c2).gameIndex =
        (processOne f1 s c1).gameIndex ∧
      (processOne f2 (processOne f1 s c1) c2).stats.duplicates =
        (processOne f1 s c1).stats.duplicates + 1) := by
  constructor
  · rw [processOne_duplicate fg sg cg hg hcg himpg hdupg]
    exact ⟨rfl, rfl, rfl, rfl⟩
  · obtain ⟨hlen, hded, _⟩ := processOne_accepted_shape f1 s c1 h h1 himp habs
    have hdup2 : (lookupIdx (processOne f1 s c1).dedup (hashGame h)).isSome = true := by
      rw [hded]
      unfold lookupIdx setIdx
      rw [assocGet_assocSet]
      simp
    rw [processOne_duplicate f2 (processOne f1 s c1) c2 h h2 himp hdup2]
    exact ⟨hlen, rfl, rfl, rfl⟩

/-- Witness for C4 at concrete states: one whose index already holds the
fingerprint, and one empty state fed the same headers from two files. -/
theorem c4_dedup_before_admission_witness :
    (candW.headers = some hdrW ∧ shouldImportGame hdrW = true ∧
      (lookupIdx procStateWdup.dedup (hashGame hdrW)).isSome = true ∧
      lookupIdx procStateW0.dedup (hashGame hdrW) = none) ∧
    (((processOne "a.zip" procStateWdup candW).games = procStateWdup.games ∧
      (processOne "a.zip" procStateWdup candW).gameIndex = procStateWdup.gameIndex ∧
      (processOne "a.zip" procStateWdup candW).dedup = procStateWdup.dedup ∧
      (processOne "a.zip" procStateWdup candW).stats.duplicates =
        procStateWdup.stats.duplicates + 1) ∧
    ((processOne "a.zip" procStateW0 candW).games.length =
        procStateW0.games.length + 1 ∧
      (processOne "b.zip" (processOne "a.zip" procStateW0 candW) candW).games =
        (processOne "a.zip" procStateW0 candW).games ∧
      (processOne "b.zip" (processOne "a.zip" procStateW0 candW) candW).gameIndex =
        (processOne "a.zip" procStateW0 candW).gameIndex ∧
      (processOne "b.zip" (processOne "a.zip" procStateW0 candW) candW).stats.duplicates =
        (processOne "a.zip" procStateW0 candW).stats.duplicates + 1)) :=
  ⟨⟨rfl, by decide, by decide, rfl⟩,
    c4_dedup_before_admission "a.zip" procStateWdup candW hdrW rfl (by decide)
      (by decide) "a.zip" "b.zip" procStateW0 candW candW hdrW rfl rfl
      (by decide) rfl⟩

/-- Every step of the candidate loop either leaves games, index and id
untouched (rejection, duplicate) or appends one record carrying the next
id, a truthy fingerprint new to the index, and registers exactly that
fingerprint. -/
theorem processOne_shape (f : String) (s : ProcState) (c : Candidate) :
    ((processOne f s c).games = s.games ∧ (processOne f s c).dedup = s.dedup) ∨
    (∃ m : GameMetadata,
      (processOne f s c).games = s.games ++ [m] ∧
      (processOne f s c).dedup = s.dedup ++ [(m.hash, m.idx)] ∧
      m.idx = s.gameIndex ∧ m.hash ≠ "" ∧
      lookupIdx s.dedup m.hash = none) := by
  cases hc : c.headers with
  | none => left; simp [processOne, hc]
  | some h =>
    by_cases himp : shouldImportGame h = true
    · by_cases hdup : (lookupIdx s.dedup (hashGame h)).isSome = true
      · left; simp [processOne, hc, himp, hdup]
      · right
        have habs : lookupIdx s.dedup (hashGame h) = none :=
          Option.not_isSome_iff_eq_none.mp (by simpa using hdup)
        refine ⟨acceptedGame h f c.movesOnly s.gameIndex, ?_, ?_, rfl,
          hashGame_ne_empty h, habs⟩
        · simp [processOne, hc, himp, habs]
        · have hset : setIdx s.dedup (hashGame h) s.gameIndex =
              s.dedup ++ [(hashGame h, s.gameIndex)] :=
            assocSet_of_absent s.dedup (hashGame h) s.gameIndex habs
          simp [processOne, hc, himp, habs, hset, acceptedGame]
    · left; simp [processOne, hc, himp]

/-- Folding the candidate loop keeps the index equal to the old index plus
exactly the fingerprint entries of the newly accepted games, all of whose
fingerprints are truthy; index keys stay pairwise distinct. -/
theorem processFold_spec (f : String) (cands : List Candidate) (s : ProcState)
    (hnd : (s.dedup.map Prod.fst).Nodup) :
    ∃ new : List GameMetadata,
      (cands.foldl (processOne f) s).games = s.games ++ new ∧
      (cands.foldl (processOne f) s).dedup = s.dedup ++ new.map gamePair ∧
      (∀ g ∈ new, g.hash ≠ "") ∧
      (((cands.foldl (processOne f) s).dedup).map Prod.fst).Nodup := by
  induction cands generalizing s with
  | nil => exact ⟨[], by simp, by simp, by simp, by simpa using hnd⟩
  | cons c rest ih =>
    rcases processOne_shape f s c with ⟨hg, hd⟩ | ⟨m, hg, hd, hidx, hhash, habs⟩
    · obtain ⟨new, h1, h2, h3, h4⟩ := ih (processOne f s c) (by rw [hd]; exact hnd)
      refine ⟨new, ?_, ?_, h3, ?_⟩
      · rw [List.foldl_cons, h1, hg]
      · rw [List.foldl_cons, h2, hd]
      · rw [List.foldl_cons]; exact h4
    · have hnotin : m.hash ∉ s.dedup.map Prod.fst :=
        (assocGet_eq_none_iff s.dedup m.hash).mp habs
      have hnd1 : (((processOne f s c).dedup).map Prod.fst).Nodup := by
        rw [hd, List.map_append]
        rw [List.nodup_append]
        refine ⟨hnd, by simp, ?_⟩
        intro a haa hab
        simp only [List.map_cons, List.map_nil, List.mem_singleton] at hab
        exact hnotin (hab ▸ haa)
      obtain ⟨new, h1, h2, h3, h4⟩ := ih (processOne f s c) hnd1
      refine ⟨m :: new, ?_, ?_, ?_, ?_⟩
      · rw [List.foldl_cons, h1, hg]
        simp
      · rw [List.foldl_cons, h2, hd]
        simp [gamePair]
      · intro g hgm
        rcases List.mem_cons.mp hgm with rfl | hgm
        · exact hhash
        · exact h3 g hgm
      · rw [List.foldl_cons]; exact h4

/-- Persisting a batch appends exactly its games to the store contents, in
order. -/
theorem applyBatch_flatten (store : List Chunk) (gs : List GameMetadata) :
    storeFlatten (applyBatch store gs) = storeFlatten store ++ gs := by
  unfold applyBatch
  by_cases hg : gs.isEmpty
  · rw [if_pos hg]
    have : gs = [] := List.isEmpty_iff.mp hg
    simp [this]
  · rw [if_neg hg]
    have hne : gs ≠ [] := by
      intro h
      rw [h] at hg
      simp at hg
    cases hl : store.getLast? with
    | none =>
      have hstore : store = [] := by
        cases store with
        | nil => rfl
        | cons a as => simp [List.getLast?_concat] at hl
      subst hstore
      unfold storeFlatten saveGamesToChunks
      rw [if_neg hg]
      simpa using saveLoop_flatten { id := 0, games := [] } gs (Or.inr hne)
    | some lc =>
      have hne' : store ≠ [] := by
        intro h
        rw [h] at hl
        simp at hl
      have hlast : store.getLast hne' = lc := by
        have hx := List.getLast?_eq_getLast_of_ne_nil hne'
        rw [hl] at hx
        exact (Option.some.inj hx).symm
      unfold storeFlatten saveGamesToChunks
      rw [if_neg hg]
      simp only [Option.getD_some, List.map_append, List.flatten_append]
      rw [saveLoop_flatten lc gs (Or.inr hne)]
      conv_rhs => rw [← List.dropLast_append_getLast hne', hlast]
      simp [List.append_assoc]

/-- One pipeline step preserves the store-index relation. -/
theorem pipelineStep_inv (st : PipeState) (b : String × List Candidate)
    (hinv : PipeInv st) : PipeInv (pipelineStep st b) := by
  obtain ⟨h1, h2, h3⟩ := hinv
  obtain ⟨new, hg, hd, hh, hnd⟩ := processFold_spec b.1 b.2
    { games := [], dedup := st.dedup, gameIndex := st.nextGameId
      stats := { total := 0, accepted := 0, rejected := 0, duplicates := 0 } } h3
  simp only [List.nil_append] at hg
  refine ⟨?_, ?_, ?_⟩
  · show (processGames b.2 b.1 st.dedup st.nextGameId).dedup =
      (storeFlatten (applyBatch st.store
        (processGames b.2 b.1 st.dedup st.nextGameId).games)).map gamePair
    rw [applyBatch_flatten]
    unfold processGames
    rw [hd, hg, List.map_append, h1]
  · show ∀ g ∈ storeFlatten (applyBatch st.store
      (processGames b.2 b.1 st.dedup st.nextGameId).games), g.hash ≠ ""
    rw [applyBatch_flatten]
    intro g hgm
    rcases List.mem_append.mp hgm with hgm | hgm
    · exact h2 g hgm
    · unfold processGames at hgm
      rw [hg] at hgm
      exact hh g hgm
  · show (((processGames b.2 b.1 st.dedup st.nextGameId).dedup).map Prod.fst).Nodup
    unfold processGames
    exact hnd

/-- The store-index relation holds along any admission history. -/
theorem runPipeline_inv (batches : List (String × List Candidate)) :
    PipeInv (runPipeline batches) := by
  unfold runPipeline
  suffices h : ∀ st, PipeInv st → PipeInv (batches.foldl pipelineStep st) by
    refine h _ ⟨?_, ?_, ?_⟩ <;> simp [storeFlatten]
  induction batches with
  | nil => intro st h; exact h
  | cons b rest ih =>
    intro st h
    exact ih _ (pipelineStep_inv st b h)

/-- Folding the rebuild loop over games with truthy, pairwise-distinct
fingerprints appends exactly their fingerprint entries. -/
theorem rebuildFold_pairs (gs : List GameMetadata) (acc : DeduplicationIndex)
    (hh : ∀ g ∈ gs, g.hash ≠ "")
    (hnd : ((acc ++ gs.map gamePair).map Prod.fst).Nodup) :
    gs.foldl (fun d g => if g.hash ≠ "" then setIdx d g.hash g.idx else d) acc =
      acc ++ gs.map gamePair := by
  induction gs generalizing acc with
  | nil => simp
  | cons g rest ih =>
    have hg : g.hash ≠ "" := hh g (List.mem_cons_self _ _)
    rw [List.foldl_cons, if_pos hg]
    have habs : assocGet acc g.hash = none := by
      rw [assocGet_eq_none_iff]
      intro hmem
      rw [List.map_append] at hnd
      have hdisj := (List.nodup_append.mp hnd).2.2
      exact hdisj hmem (by simp [gamePair])
    have hset : setIdx acc g.hash g.idx = acc ++ [(g.hash, g.idx)] :=
      assocSet_of_absent acc g.hash g.idx habs
    rw [hset]
    rw [ih (acc ++ [(g.hash, g.idx)]) (fun g' hg' => hh g' (List.mem_cons_of_mem _ hg'))
      (by
        have hre : (acc ++ [(g.hash, g.idx)]) ++ rest.map gamePair =
            acc ++ (g.hash, g.idx) :: rest.map gamePair := by
          simp [List.append_assoc]
        rw [hre]
        simpa [gamePair] using hnd)]
    simp [gamePair, List.append_assoc]

/-- C5: the deduplication index rebuilt by scanning all persisted chunks
(`loadExistingChunksData`, mapping each persisted game's fingerprint to its
id) is equal, entry for entry, to the incrementally maintained index
produced by `processGames` at admission time, along any admission history
whose accepted games are all persisted. -/
theorem c5_rebuilt_index_equals_incremental
    (batches : List (String × List Candidate)) :
    rebuildDedup (runPipeline batches).store = (runPipeline batches).dedup := by
  obtain ⟨h1, h2, h3⟩ := runPipeline_inv batches
  unfold rebuildDedup
  have hnd : ((([] : DeduplicationIndex) ++
      (storeFlatten (runPipeline batches).store).map gamePair).map Prod.fst).Nodup := by
    rw [h1] at h3
    simpa using h3
  have hfold := rebuildFold_pairs (storeFlatten (runPipeline batches).store) [] h2 hnd
  rw [show (((runPipeline batches).store).map Chunk.games).flatten =
    storeFlatten (runPipeline batches).store from rfl]
  rw [hfold]
  simpa using h1.symm

/-- An already-annotated record is skipped outright: the loop body performs
no cleaning, no replay and no lookup, and returns it unchanged. -/
theorem enrichOne_skip (env : EnrichEnv) (g : GameMetadata)
    (h : truthy g.ecoJsonFen = true) :
    enrichOne env g = (g, EnrichOutcome.skipped, 0) := by
  simp [enrichOne, h]

/-- Folding the enrichment loop over an entirely annotated record set only
appends the records untouched and counts them skipped. -/
theorem enrichFold_skip (env : EnrichEnv) (gs : List GameMetadata)
    (st : EnrichResult) (h : ∀ g ∈ gs, truthy g.ecoJsonFen = true) :
    gs.foldl (enrichStep env) st =
      { games := st.games ++ gs, matched := st.matched, unmatched := st.unmatched
        skipped := st.skipped + gs.length, lookups := st.lookups } := by
  induction gs generalizing st with
  | nil => cases st; simp
  | cons g rest ih =>
    rw [List.foldl_cons]
    have hone := enrichOne_skip env g (h g (List.mem_cons_self _ _))
    have hstep : enrichStep env st g =
        { games := st.games ++ [g], matched := st.matched, unmatched := st.unmatched
          skipped := st.skipped + 1, lookups := st.lookups } := by
      simp [enrichStep, hone]
    rw [hstep, ih _ (fun g' hg' => h g' (List.mem_cons_of_mem _ hg'))]
    simp only [List.append_assoc, List.singleton_append, List.length_cons,
      EnrichResult.mk.injEq, true_and, and_true]
    omega

/-- C6: `enrichGamesWithEcoJson` is idempotent on an annotated record set —
every record already carrying a non-empty `ecoJsonFen` annotation is
skipped entirely, so a run over a record set in which every record is
annotated performs zero opening lookups, returns every record (and in
particular every annotation field) byte-identical, and counts all records
as skipped. -/
theorem c6_enrichment_idempotent (env : EnrichEnv) (gs : List GameMetadata)
    (h : ∀ g ∈ gs, truthy g.ecoJsonFen = true) :
    enrichGamesWithEcoJson env gs =
      { games := gs, matched := 0, unmatched := 0, skipped := gs.length
        lookups := 0 } := by
  unfold enrichGamesWithEcoJson
  rw [enrichFold_skip env gs _ h]
  simp

/-- Witness for C6 on a concrete annotated record set. -/
theorem c6_enrichment_idempotent_witness :
    (∀ g ∈ [mkGameEnr], truthy g.ecoJsonFen = true) ∧
    enrichGamesWithEcoJson trivEnv [mkGameEnr] =
      { games := [mkGameEnr], matched := 0, unmatched := 0
        skipped := ([mkGameEnr] : List GameMetadata).length, lookups := 0 } :=
  ⟨by decide, c6_enrichment_idempotent trivEnv [mkGameEnr] (by decide)⟩

/-- A record that is not annotated and whose move sequence cannot be
replayed (empty cleaned move list, or an invalid move during replay) comes
out of the loop body untouched, counted unmatched, with no lookup. -/
theorem enrichOne_unreplayable (env : EnrichEnv) (g : GameMetadata)
    (hskip : truthy g.ecoJsonFen = false)
    (hfail : env.clean g.moves = [] ∨ env.replay (env.clean g.moves) = none) :
    enrichOne env g = (g, EnrichOutcome.unmatched, 0) := by
  rcases hfail with hf | hf
  · simp [enrichOne, hskip, hf]
  · simp only [enrichOne, hskip, Bool.false_eq_true, if_false]
    by_cases hce : (env.clean g.moves).isEmpty
    · rw [if_pos hce]
    · rw [if_neg hce, hf]

/-- C7: for every record whose move sequence cannot be replayed (an invalid
move, or an empty cleaned move list), `enrichGamesWithEcoJson` leaves the
record's annotation fields unset (the record is returned unchanged), counts
it under unmatched instead of raising an error, and the run still reports
the matched / unmatched / skipped counts in its summary. -/
theorem c7_unreplayable_counted_unmatched (env : EnrichEnv)
    (gs : List GameMetadata) (g : GameMetadata)
    (hskip : truthy g.ecoJsonFen = false)
    (hfail : env.clean g.moves = [] ∨ env.replay (env.clean g.moves) = none) :
    enrichGamesWithEcoJson env (gs ++ [g]) =
      { games := (enrichGamesWithEcoJson env gs).games ++ [g]
        matched := (enrichGamesWithEcoJson env gs).matched
        unmatched := (enrichGamesWithEcoJson env gs).unmatched + 1
        skipped := (enrichGamesWithEcoJson env gs).skipped
        lookups := (enrichGamesWithEcoJson env gs).lookups } := by
  unfold enrichGamesWithEcoJson
  rw [List.foldl_append]
  simp [enrichStep, enrichOne_unreplayable env g hskip hfail]

/-- Witness for C7 on a concrete unannotated record whose cleaned move list
is empty. -/
theorem c7_unreplayable_counted_unmatched_witness :
    (truthy (mkGame 0).ecoJsonFen = false ∧
      (trivEnv.clean (mkGame 0).moves = [] ∨
        trivEnv.replay (trivEnv.clean (mkGame 0).moves) = none)) ∧
    enrichGamesWithEcoJson trivEnv ([] ++ [mkGame 0]) =
      { games := (enrichGamesWithEcoJson trivEnv []).games ++ [mkGame 0]
        matched := (enrichGamesWithEcoJson trivEnv []).matched
        unmatched := (enrichGamesWithEcoJson trivEnv []).unmatched + 1
        skipped := (enrichGamesWithEcoJson trivEnv []).skipped
        lookups := (enrichGamesWithEcoJson trivEnv []).lookups } :=
  ⟨⟨by decide, Or.inl rfl⟩,
    c7_unreplayable_counted_unmatched trivEnv [] (mkGame 0) (by decide) (Or.inl rfl)⟩

/-- Indexing a white appearance touches only the entry of the inserted
name: it pushes the game id onto its `asWhite` list and bumps its total. -/
theorem entryAt_addWhite (ix : PlayerIndex) (n : String) (i : Nat) (m : String) :
    entryAt (addWhite ix n i) m =
      if n = m then
        { asWhite := (entryAt ix m).asWhite ++ [i]
          asBlack := (entryAt ix m).asBlack
          totalGames := (entryAt ix m).totalGames + 1 }
      else entryAt ix m := by
  unfold entryAt addWhite
  rw [assocGet_assocSet]
  by_cases hnm : n = m
  · subst hnm
    simp
  · rw [if_neg hnm, if_neg hnm]

/-- Indexing a black appearance touches only the entry of the inserted
name: it pushes the game id onto its `asBlack` list and bumps its total. -/
theorem entryAt_addBlack (ix : PlayerIndex) (n : String) (i : Nat) (m : String) :
    entryAt (addBlack ix n i) m =
      if n = m then
        { asWhite := (entryAt ix m).asWhite
          asBlack := (entryAt ix m).asBlack ++ [i]
          totalGames := (entryAt ix m).totalGames + 1 }
      else entryAt ix m := by
  unfold entryAt addBlack
  rw [assocGet_assocSet]
  by_cases hnm : n = m
  · subst hnm
    simp
  · rw [if_neg hnm, if_neg hnm]

/-- One game's contribution to the entry of a name: its id goes onto the
`asWhite` (resp. `asBlack`) list exactly when its truthy white (resp.
black) field normalizes to that name, and the total counts both. -/
theorem playerStep_entry (ix : PlayerIndex) (g : GameMetadata) (n : String) :
    entryAt (playerStep ix g) n =
      { asWhite := (entryAt ix n).asWhite ++
          (if g.white ≠ "" ∧ normName g.white = n then [g.idx] else [])
        asBlack := (entryAt ix n).asBlack ++
          (if g.black ≠ "" ∧ normName g.black = n then [g.idx] else [])
        totalGames := (entryAt ix n).totalGames +
          (if g.white ≠ "" ∧ normName g.white = n then 1 else 0) +
          (if g.black ≠ "" ∧ normName g.black = n then 1 else 0) } := by
  unfold playerStep
  by_cases hw : g.white ≠ ""
  · by_cases hb : g.black ≠ ""
    · rw [if_pos hw, if_pos hb, entryAt_addBlack]
      by_cases hnw : normName g.white = n <;>
        by_cases hnb : normName g.black = n <;>
          simp [entryAt_addWhite, hw, hb, hnw, hnb]
    · rw [if_pos hw, if_neg hb]
      by_cases hnw : normName g.white = n <;>
        simp [entryAt_addWhite, hw, hb, hnw]
  · by_cases hb : g.black ≠ ""
    · rw [if_neg hw, if_pos hb, entryAt_addBlack]
      by_cases hnb : normName g.black = n <;> simp [hw, hb, hnb]
    · rw [if_neg hw, if_neg hb]
      simp [hw, hb]

theorem whiteIds_cons (g : GameMetadata) (gs : List GameMetadata) (n : String) :
    whiteIds (g :: gs) n =
      (if g.white ≠ "" ∧ normName g.white = n then [g.idx] else []) ++
        whiteIds gs n := by
  unfold whiteIds
  rw [List.filter_cons]
  by_cases hc : g.white ≠ "" ∧ normName g.white = n <;> simp [hc]

theorem blackIds_cons (g : GameMetadata) (gs : List GameMetadata) (n : String) :
    blackIds (g :: gs) n =
      (if g.black ≠ "" ∧ normName g.black = n then [g.idx] else []) ++
        blackIds gs n := by
  unfold blackIds
  rw [List.filter_cons]
  by_cases hc : g.black ≠ "" ∧ normName g.black = n <;> simp [hc]

/-- The entry of a name after folding the player-index loop: the starting
entry extended by exactly the per-color id lists of the processed games,
with the total growing by their combined length. -/
theorem buildPlayerFold (gs : List GameMetadata) (ix : PlayerIndex) (n : String) :
    entryAt (gs.foldl playerStep ix) n =
      { asWhite := (entryAt ix n).asWhite ++ whiteIds gs n
        asBlack := (entryAt ix n).asBlack ++ blackIds gs n
        totalGames := (entryAt ix n).totalGames + (whiteIds gs n).length +
          (blackIds gs n).length } := by
  induction gs generalizing ix with
  | nil => simp [whiteIds, blackIds]
  | cons g rest ih =>
    rw [List.foldl_cons, ih (playerStep ix g), playerStep_entry, whiteIds_cons,
      blackIds_cons]
    by_cases hw : g.white ≠ "" ∧ normName g.white = n <;>
      by_cases hb : g.black ≠ "" ∧ normName g.black = n <;>
        simp [hw, hb, List.append_assoc] <;> omega

/-- C10: in the player index built by `buildPlayerIndex` from any record
set, for every player-name key the total equals the length of `asWhite`
plus the length of `asBlack`, and every game with a truthy white (resp.
black) field contributes its id exactly once to the `asWhite` (resp.
`asBlack`) list of its normalized name — those lists are exactly the id
lists of the matching games, in order. -/
theorem c10_player_index_invariant (gs : List GameMetadata) (n : String) :
    (entryAt (buildPlayerIndex gs) n).totalGames =
      (entryAt (buildPlayerIndex gs) n).asWhite.length +
        (entryAt (buildPlayerIndex gs) n).asBlack.length ∧
    (entryAt (buildPlayerIndex gs) n).asWhite = whiteIds gs n ∧
    (entryAt (buildPlayerIndex gs) n).asBlack = blackIds gs n := by
  unfold buildPlayerIndex
  rw [buildPlayerFold gs [] n]
  simp [entryAt, assocGet]

/-- In an association list with pairwise-distinct keys, a key determines
its value. -/
theorem nodup_keys_val_unique {β : Type} (l : List (String × β))
    (hnd : (l.map Prod.fst).Nodup) (k : String) (v : β) (hmem : (k, v) ∈ l) :
    ∀ p ∈ l, p.1 = k → p.2 = v := by
  induction l with
  | nil => simp at hmem
  | cons q rest ih =>
    rw [List.map_cons, List.nodup_cons] at hnd
    intro p hp hpk
    rcases List.mem_cons.mp hp with rfl | hp
    · rcases List.mem_cons.mp hmem with heq | hmem'
      · rw [← heq]
      · refine absurd ?_ hnd.1
        rw [hpk]
        exact List.mem_map.mpr ⟨(k, v), hmem', rfl⟩
    · rcases List.mem_cons.mp hmem with heq | hmem'
      · refine absurd ?_ hnd.1
        have hq1 : q.1 = k := by rw [← heq]
        rw [hq1, ← hpk]
        exact List.mem_map.mpr ⟨p, hp, rfl⟩
      · exact ih hnd.2 hmem' p hp hpk

/-- The categorization loop, characterized: the three category lists are
the matching selections of the local file list, in order. -/
theorem classifyFold (remote : BlobStore) (fs : LocalFiles) (p0 : UploadPlan) :
    fs.foldl (classifyStep remote) p0 =
      { newFiles := p0.newFiles ++
          (fs.filter (fun f => (assocGet remote (blobKey f.1)).isNone)).map newEntry
        modifiedFiles := p0.modifiedFiles ++ fs.filterMap (modEntryOf remote)
        unchangedFiles := p0.unchangedFiles ++ fs.filterMap (unchEntryOf remote) } := by
  induction fs generalizing p0 with
  | nil => cases p0; simp
  | cons f rest ih =>
    rw [List.foldl_cons, ih]
    cases hr : assocGet remote (blobKey f.1) with
    | none =>
      simp [classifyStep, modEntryOf, unchEntryOf, hr, List.filter_cons,
        List.filterMap_cons, List.append_assoc]
    | some rc =>
      by_cases hne : f.2 = rc
      · simp [classifyStep, modEntryOf, unchEntryOf, hr, hne, List.filter_cons,
          List.filterMap_cons, List.append_assoc]
      · simp [classifyStep, modEntryOf, unchEntryOf, hr, hne, List.filter_cons,
          List.filterMap_cons, List.append_assoc]

/-- When a local file yields a Modified entry, the remote has a different
content under its key and the entry is the one recording both sizes. -/
theorem modEntryOf_eq_some_iff (remote : BlobStore) (f : String × String)
    (e : ModifiedFileEntry) :
    modEntryOf remote f = some e ↔
      ∃ rc, assocGet remote (blobKey f.1) = some rc ∧ f.2 ≠ rc ∧
        e = modifiedEntry f rc := by
  unfold modEntryOf
  cases h : assocGet remote (blobKey f.1) with
  | none => simp
  | some rc =>
    by_cases hne : f.2 = rc
    · simp [hne]
    · have hred : (match some rc with
          | some rc => if f.2 ≠ rc then some (modifiedEntry f rc) else none
          | none => none) = some (modifiedEntry f rc) := by
        simp [hne]
      rw [hred]
      constructor
      · intro he
        exact ⟨rc, rfl, hne, (Option.some.inj he).symm⟩
      · rintro ⟨rc', hrr, hne', hee⟩
        rw [← Option.some.inj hrr] at hee
        rw [hee]

/-- When a local file yields an Unchanged entry, the remote holds exactly
its content under its key. -/
theorem unchEntryOf_eq_some_iff (remote : BlobStore) (f : String × String)
    (e : UnchangedFileEntry) :
    unchEntryOf remote f = some e ↔
      ∃ rc, assocGet remote (blobKey f.1) = some rc ∧ f.2 = rc ∧
        e = unchangedEntry f := by
  unfold unchEntryOf
  cases h : assocGet remote (blobKey f.1) with
  | none => simp
  | some rc =>
    by_cases hne : f.2 = rc
    · have hred : (match some rc with
          | some rc => if f.2 = rc then some (unchangedEntry f) else none
          | none => none) = some (unchangedEntry f) := by
        simp [hne]
      rw [hred]
      constructor
      · intro he
        exact ⟨rc, rfl, hne, (Option.some.inj he).symm⟩
      · rintro ⟨rc', hrr, hee', hee⟩
        rw [hee]
    · simp [hne]

/-- C8: `uploadToBlobs` classifies every local artifact by content
comparison with the remote store — New exactly when no blob with its key
exists, Modified exactly when the remote content differs (the entry records
the byte-size delta), Unchanged exactly when the contents are identical —
and on confirmation uploads exactly the New and Modified artifacts; when
the New and Modified sets are both empty it uploads nothing and reports
that nothing is to upload. -/
theorem c8_upload_plan_and_apply (localFiles : LocalFiles) (remote : BlobStore)
    (fn content : String) (hmem : (fn, content) ∈ localFiles)
    (hnd : (localFiles.map Prod.fst).Nodup) :
    (({ filename := fn, content := content } : NewFileEntry) ∈
        (classifyFiles localFiles remote).newFiles ↔
      assocGet remote (blobKey fn) = none) ∧
    (∀ rc, assocGet remote (blobKey fn) = some rc →
      ((({ filename := fn, content := content, localSize := byteSize content
           remoteSize := byteSize rc
           sizeDiff := (byteSize content : Int) - (byteSize rc : Int) } :
            ModifiedFileEntry) ∈ (classifyFiles localFiles remote).modifiedFiles ↔
        content ≠ rc) ∧
       (({ filename := fn, size := byteSize content } : UnchangedFileEntry) ∈
          (classifyFiles localFiles remote).unchangedFiles ↔ content = rc))) ∧
    ((uploadToBlobs localFiles remote true).uploaded =
      (classifyFiles localFiles remote).newFiles.map
          (fun e => (blobKey e.filename, e.content)) ++
        (classifyFiles localFiles remote).modifiedFiles.map
          (fun e => (blobKey e.filename, e.content))) ∧
    ((classifyFiles localFiles remote).newFiles = [] →
      (classifyFiles localFiles remote).modifiedFiles = [] →
      ∀ confirmed, (uploadToBlobs localFiles remote confirmed).uploaded = [] ∧
        (uploadToBlobs localFiles remote confirmed).nothingToUpload = true) := by
  have hplan := classifyFold remote localFiles
    { newFiles := [], modifiedFiles := [], unchangedFiles := [] }
  have huniq := nodup_keys_val_unique localFiles hnd fn content hmem
  have hcls : classifyFiles localFiles remote =
      { newFiles :=
          (localFiles.filter (fun f => (assocGet remote (blobKey f.1)).isNone)).map newEntry
        modifiedFiles := localFiles.filterMap (modEntryOf remote)
        unchangedFiles := localFiles.filterMap (unchEntryOf remote) } := by
    rw [show classifyFiles localFiles remote =
      localFiles.foldl (classifyStep remote)
        { newFiles := [], modifiedFiles := [], unchangedFiles := [] } from rfl, hplan]
    simp
  refine ⟨?_, ?_, ?_, ?_⟩
  · rw [hcls]
    constructor
    · intro hin
      obtain ⟨f, hf, hfe⟩ := List.mem_map.mp hin
      obtain ⟨hfl, hcond⟩ := List.mem_filter.mp hf
      have h1 : f.1 = fn := congrArg NewFileEntry.filename hfe
      rw [← h1]
      exact Option.isNone_iff_eq_none.mp (by simpa using hcond)
    · intro hnone
      exact List.mem_map.mpr ⟨(fn, content),
        List.mem_filter.mpr ⟨hmem, by simp [hnone]⟩, rfl⟩
  · intro rc hrc
    rw [hcls]
    refine ⟨⟨?_, ?_⟩, ?_, ?_⟩
    · intro hin
      obtain ⟨f, hf, hfe⟩ := List.mem_filterMap.mp hin
      obtain ⟨rc', hr, hfne, hee⟩ := (modEntryOf_eq_some_iff remote f _).mp hfe
      have h1 : f.1 = fn := (congrArg ModifiedFileEntry.filename hee).symm
      have h2 : f.2 = content := (congrArg ModifiedFileEntry.content hee).symm
      rw [h1, hrc] at hr
      rw [← h2, Option.some.inj hr]
      exact hfne
    · intro hne
      refine List.mem_filterMap.mpr ⟨(fn, content), hmem, ?_⟩
      exact (modEntryOf_eq_some_iff remote (fn, content) _).mpr ⟨rc, hrc, hne, rfl⟩
    · intro hin
      obtain ⟨f, hf, hfe⟩ := List.mem_filterMap.mp hin
      obtain ⟨rc', hr, hfeq, hee⟩ := (unchEntryOf_eq_some_iff remote f _).mp hfe
      have h1 : f.1 = fn := (congrArg UnchangedFileEntry.filename hee).symm
      have h2 : f.2 = content := huniq f hf h1
      rw [h1, hrc] at hr
      rw [← h2, hfeq, Option.some.inj hr]
    · intro heq
      refine List.mem_filterMap.mpr ⟨(fn, content), hmem, ?_⟩
      exact (unchEntryOf_eq_some_iff remote (fn, content) _).mpr ⟨rc, hrc, heq, rfl⟩
  · by_cases hcase : ((classifyFiles localFiles remote).newFiles.isEmpty &&
        (classifyFiles localFiles remote).modifiedFiles.isEmpty) = true
    · obtain ⟨hb1, hb2⟩ := Bool.and_eq_true_iff.mp hcase
      have h1 : (classifyFiles localFiles remote).newFiles = [] :=
        List.isEmpty_iff.mp hb1
      have h2 : (classifyFiles localFiles remote).modifiedFiles = [] :=
        List.isEmpty_iff.mp hb2
      simp [uploadToBlobs, hcase, h1, h2]
    · simp [uploadToBlobs, hcase]
  · intro he1 he2 confirmed
    constructor <;> simp [uploadToBlobs, he1, he2]

/-- Witness for C8 on a concrete local directory and empty remote store. -/
theorem c8_upload_plan_and_apply_witness :
    (("a.json", "x") ∈ ([("a.json", "x")] : LocalFiles) ∧
      (([("a.json", "x")] : LocalFiles).map Prod.fst).Nodup) ∧
    ((({ filename := "a.json", content := "x" } : NewFileEntry) ∈
        (classifyFiles [("a.json", "x")] []).newFiles ↔
      assocGet ([] : BlobStore) (blobKey "a.json") = none) ∧
    (∀ rc, assocGet ([] : BlobStore) (blobKey "a.json") = some rc →
      ((({ filename := "a.json", content := "x", localSize := byteSize "x"
           remoteSize := byteSize rc
           sizeDiff := (byteSize "x" : Int) - (byteSize rc : Int) } :
            ModifiedFileEntry) ∈ (classifyFiles [("a.json", "x")] []).modifiedFiles ↔
        "x" ≠ rc) ∧
       (({ filename := "a.json", size := byteSize "x" } : UnchangedFileEntry) ∈
          (classifyFiles [("a.json", "x")] []).unchangedFiles ↔ "x" = rc))) ∧
    ((uploadToBlobs [("a.json", "x")] [] true).uploaded =
      (classifyFiles [("a.json", "x")] []).newFiles.map
          (fun e => (blobKey e.filename, e.content)) ++
        (classifyFiles [("a.json", "x")] []).modifiedFiles.map
          (fun e => (blobKey e.filename, e.content))) ∧
    ((classifyFiles [("a.json", "x")] []).newFiles = [] →
      (classifyFiles [("a.json", "x")] []).modifiedFiles = [] →
      ∀ confirmed, (uploadToBlobs [("a.json", "x")] [] confirmed).uploaded = [] ∧
        (uploadToBlobs [("a.json", "x")] [] confirmed).nothingToUpload = true)) :=
  ⟨⟨by decide, by decide⟩,
    c8_upload_plan_and_apply [("a.json", "x")] [] "a.json" "x" (by decide) (by decide)⟩

end Fenster
